import Mathlib

/-!
Shallow embedding of the knotsgoup dashboard sources (src/src/App.tsx and the
extended variant with the historical chart): the data model, the aggregator
`processNodeData`, the table derivation `sortedVersions`, the historical
backfill `fetchHistoricalData` with its cross-page week-spacing filter and
page cap, the cache-freshness policy, and the percentage display, together
with the verified properties stated at the end of the file.

Conventions of the embedding: JS objects with string keys are association
lists in insertion order (`Object.values` is `map Prod.snd`); unix-second
timestamps are `Nat`; millisecond clock values are `Int`; a fetch or JSON
parse that throws is `none`/`Except.error`; the `localStorage` JSON round
trip is the identity at the stored type.  JS `Array.prototype.sort` is
required to be stable, and a stable sort's output is uniquely determined by
a consistent comparator, so both sorts are embedded as Mathlib's (stable)
insertion sort under the comparator's relation.
-/

namespace KnotsGoUp

/-! ## Strings: the JS primitives the code uses -/

/-- JS `pat.isPrefixOf s` test reused below; core Lean's Boolean prefix test
of character lists. -/
abbrev charsPrefix (pat s : List Char) : Bool := pat.isPrefixOf s

/-- JS `String.prototype.includes`, on character lists: does `pat` occur as a
contiguous substring of `s` (at the start, or anywhere later)? -/
def containsSub (pat : List Char) : List Char → Bool
  | [] => charsPrefix pat []
  | c :: cs => charsPrefix pat (c :: cs) || containsSub pat cs

/-- `version.includes('Knots')` and friends: substring containment. -/
def jsIncludes (s pat : String) : Bool := containsSub pat.toList s.toList

/-- JS `String.prototype.replace` with a plain-string pattern: replace the
first occurrence of `pat` (if any) by `repl`, scanning left to right. -/
def replaceFirstAux (pat repl : List Char) : List Char → List Char
  | [] => if charsPrefix pat [] then repl else []
  | c :: cs =>
    if charsPrefix pat (c :: cs) then repl ++ (c :: cs).drop pat.length
    else c :: replaceFirstAux pat repl cs

/-- The regex replace `.replace(/\/$/, '')`: remove a single trailing `/`. -/
def stripTrailingSlash (s : List Char) : List Char :=
  match s.getLast? with
  | some '/' => s.dropLast
  | _ => s

/-- The display-name normalization applied to each table row in
`sortedVersions`: `version.replace('/Satoshi:', '').replace(/\/$/, '')`. -/
def displayName (version : String) : String :=
  ⟨stripTrailingSlash (replaceFirstAux "/Satoshi:".toList [] version.toList)⟩

/-- The C5 spec sentence, taken at its word, for comparison with
`displayName`: strip the literal `/Satoshi:` only when it is a leading
prefix of the version string, then strip a single trailing slash. -/
def displayNameSpec (version : String) : String :=
  ⟨stripTrailingSlash
    (if charsPrefix "/Satoshi:".toList version.toList then
      version.toList.drop "/Satoshi:".toList.length
    else version.toList)⟩

/-! ## Data model -/

/-- One node record.  The source declares a 13-position tuple per node;
position 1 (the version string) is the only field any verified logic reads,
so the embedding keeps that field and abstracts the pass-through rest. -/
structure NodeRecord where
  version : String
deriving DecidableEq

/-- `ApiResponse`: one full snapshot.  `nodes` is a JS object keyed by node
id, embedded as an association list in key-insertion order. -/
structure ApiResponse where
  timestamp : Nat
  total_nodes : Nat
  latest_height : Nat
  nodes : List (String × NodeRecord)
deriving DecidableEq

/-! ## Aggregator (`processNodeData`) -/

/-- The three pieces of state `processNodeData` computes. -/
structure AggregateResult where
  versionCounts : List (String × Nat)
  knotsCount : Nat
  otherCount : Nat
deriving DecidableEq

/-- `counts[version] = (counts[version] || 0) + 1` on a JS object embedded as
an association list: bump an existing key in place, append a missing key. -/
def bumpCount (counts : List (String × Nat)) (version : String) :
    List (String × Nat) :=
  match counts with
  | [] => [(version, 1)]
  | (k, c) :: rest =>
    if k = version then (k, c + 1) :: rest else (k, c) :: bumpCount rest version

/-- The body of the `forEach` in `processNodeData`, for one node. -/
def processNode (acc : AggregateResult) (node : NodeRecord) : AggregateResult :=
  { versionCounts := bumpCount acc.versionCounts node.version
    knotsCount :=
      if jsIncludes node.version "Knots" then acc.knotsCount + 1 else acc.knotsCount
    otherCount :=
      if jsIncludes node.version "Knots" then acc.otherCount else acc.otherCount + 1 }

/-- `processNodeData` (App.tsx lines 86–105; variant lines 203–222): tally
per-version counts over `Object.values(data.nodes)` and split the records
into Knots and non-Knots counts. -/
def processNodeData (data : ApiResponse) : AggregateResult :=
  (data.nodes.map Prod.snd).foldl processNode ⟨[], 0, 0⟩

/-- The independent Knots-counting loop inside `fetchHistoricalData` (variant
lines 159–166): count the node records whose version contains `Knots`. -/
def historicalKnotsCount (nodes : List (String × NodeRecord)) : Nat :=
  (nodes.map Prod.snd).foldl
    (fun knotsCount node =>
      if jsIncludes node.version "Knots" then knotsCount + 1 else knotsCount) 0

/-! ## The version table (`sortedVersions`) -/

/-- The relation decided by the comparator `([, a], [, b]) => b - a` of
`sortedVersions`' sort: an entry may precede another exactly when its count
is at least as large, i.e. descending by count. -/
def byCountDesc (p q : String × Nat) : Prop := q.2 ≤ p.2

instance : DecidableRel byCountDesc := fun p q => Nat.decLe q.2 p.2

instance : IsTotal (String × Nat) byCountDesc :=
  ⟨fun p q => Nat.le_total q.2 p.2⟩

instance : IsTrans (String × Nat) byCountDesc :=
  ⟨fun _ _ _ h h2 => le_trans h2 h⟩

/-- `sortedVersions` (App.tsx lines 110–116; variant lines 228–234):
`Object.entries(versionCounts).sort(([, a], [, b]) => b - a).slice(0, 21)`
followed by the display-name normalization of each row. -/
def sortedVersions (versionCounts : List (String × Nat)) : List (String × Nat) :=
  ((versionCounts.insertionSort byCountDesc).take 21).map
    (fun e => (displayName e.1, e.2))

/-! ## Historical backfill (`fetchHistoricalData`) -/

/-- `ONE_WEEK_MS = 7 * 24 * 60 * 60 * 1000`; the filter compares second-level
timestamps against `ONE_WEEK_MS / 1000`. -/
def ONE_WEEK_MS : Nat := 7 * 24 * 60 * 60 * 1000

/-- The page-fetch cap of the backfill loop. -/
def MAX_API_CALLS : Nat := 12

/-- One entry of a snapshot listing page (`Snapshot` in the source). -/
structure Summary where
  url : String
  timestamp : Nat
  total_nodes : Nat
  latest_height : Nat
deriving DecidableEq

/-- One listing page (`SnapshotResponse`); `count` and `previous` are never
read by the loop and are omitted. -/
structure ListingPage where
  next : Option String
  results : List Summary
deriving DecidableEq

/-- One point of the historical series. -/
structure HistPoint where
  timestamp : Nat
  knotsCount : Nat
deriving DecidableEq

/-- The remote API as the loop observes it: what each URL returns.  `none`
models a failed fetch or parse (an `axios` rejection). -/
structure World where
  pages : String → Option ListingPage
  snapshots : String → Option ApiResponse

/-- One evaluation of the `filter` callback at `snapshot.timestamp = t`, with
the mutated `lastTimestamp` as explicit state.  The JS guard is
`!lastTimestamp`, true when `lastTimestamp` is `null` — and also when it is
`0` (falsiness), which the embedding reproduces.  `timeDiff` is
`Math.abs(snapshot.timestamp - lastTimestamp)`. -/
def keepSnapshot (lastTimestamp : Option Nat) (t : Nat) : Bool × Option Nat :=
  match lastTimestamp with
  | none => (true, some t)
  | some last =>
    if last = 0 then (true, some t)
    else
      let timeDiff := max t last - min t last
      if ONE_WEEK_MS / 1000 ≤ timeDiff then (true, some t) else (false, some last)

/-- `snapshots.filter(...)` with its stateful callback (variant lines
139–151): the kept summaries in order, plus the final `lastTimestamp`, which
the source carries over into the next page. -/
def filterSummaries (last : Option Nat) : List Summary → List Summary × Option Nat
  | [] => ([], last)
  | s :: rest =>
    let k := keepSnapshot last s.timestamp
    let r := filterSummaries k.2 rest
    (if k.1 then s :: r.1 else r.1, r.2)

/-- The `for (const snapshot of filteredSnapshots)` loop (variant lines
156–173): fetch each kept summary's full snapshot and record its timestamp
with its Knots count.  Returns the appended points or the thrown error,
together with the number of per-snapshot fetches issued before stopping. -/
def processKept (w : World) : List Summary → Except Unit (List HistPoint) × Nat
  | [] => (.ok [], 0)
  | s :: rest =>
    match w.snapshots s.url with
    | none => (.error (), 1)
    | some resp =>
      let r := processKept w rest
      (r.1.map (fun pts => ⟨s.timestamp, historicalKnotsCount resp.nodes⟩ :: pts),
       r.2 + 1)

/-- What one run of the paginated while-loop produces: the accumulated points
(or the error that aborted the run), the number of listing-page fetches, and
the number of per-snapshot fetches. -/
structure LoopOut where
  result : Except Unit (List HistPoint)
  pageFetches : Nat
  snapFetches : Nat

/-- The `while (nextUrl && apiCallCount < MAX_API_CALLS)` loop (variant lines
130–183).  `fuel` stands for `MAX_API_CALLS - apiCallCount` and decreases by
one per iteration; each iteration performs exactly one listing-page fetch. -/
def fetchLoop (w : World) : Nat → Option String → Option Nat → LoopOut
  | 0, _, _ => ⟨.ok [], 0, 0⟩
  | _ + 1, none, _ => ⟨.ok [], 0, 0⟩
  | fuel + 1, some url, last =>
    match w.pages url with
    | none => ⟨.error (), 1, 0⟩
    | some page =>
      let fs := filterSummaries last page.results
      let pk := processKept w fs.1
      match pk.1 with
      | .error e => ⟨.error e, 1, pk.2⟩
      | .ok pts =>
        let rest := fetchLoop w fuel page.next fs.2
        ⟨rest.result.map (pts ++ ·), rest.pageFetches + 1, rest.snapFetches + pk.2⟩

/-- The listing summaries the loop reads, in reading order: concatenation of
the `results` arrays of the pages it visits.  Used to state the upstream
newest-first ordering assumption of the spacing property. -/
def visitedResults (w : World) : Nat → Option String → List Summary
  | 0, _ => []
  | _ + 1, none => []
  | fuel + 1, some url =>
    match w.pages url with
    | none => []
    | some page => page.results ++ visitedResults w fuel page.next

/-- The relation decided by the final sort's comparator
`(a, b) => a.timestamp - b.timestamp`: ascending by timestamp. -/
def byTimeAsc (a b : HistPoint) : Prop := a.timestamp ≤ b.timestamp

instance : DecidableRel byTimeAsc := fun a b => Nat.decLe a.timestamp b.timestamp

/-! ## Caches -/

/-- `CACHE_DURATION` of the historical pipeline: 24 hours in milliseconds. -/
def HIST_CACHE_DURATION : Int := 24 * 60 * 60 * 1000

/-- `CACHE_DURATION` of the latest-snapshot pipeline: 21 minutes in
milliseconds (the adjacent comment in the source still says 5 minutes). -/
def NODE_CACHE_DURATION : Int := 21 * 60 * 1000

/-- The cache validity test both pipelines use:
`cachedData && cachedTimestamp && (currentTime - parseInt(cachedTimestamp)) < CACHE_DURATION`.
A stored value is absent exactly when `getItem` returned `null`; stored
strings are never empty, so JS truthiness coincides with presence. -/
def cacheFresh (data : Option α) (ts : Option Int) (now ttl : Int) : Bool :=
  match data, ts with
  | some _, some t => decide (now - t < ttl)
  | _, _ => false

/-- The two localStorage keys of the historical pipeline
(`knotsgoup_snapshots` and `knotsgoup_snapshots_timestamp`), with the stored
JSON embedded at its parsed type. -/
structure HistCache where
  snapshots : Option (List HistPoint)
  timestamp : Option Int
deriving DecidableEq

/-- Everything observable about one run of `fetchHistoricalData`: the value
passed to `setHistoricalData` (`none` when the run failed and the loading
state persists), the cache after the run, and how many network requests of
each kind were made. -/
structure HistOutcome where
  result : Option (List HistPoint)
  cache : HistCache
  pageFetches : Nat
  snapFetches : Nat
deriving DecidableEq

/-- The fixed first listing URL. -/
def SNAPSHOTS_URL : String := "https://bitnodes.io/api/v1/snapshots/"

/-- The cache-miss path of `fetchHistoricalData`: run the paginated loop; on
error, catch it — no state update, no cache write; on success, sort the
points ascending by timestamp, cache the sorted series with the current
time, and publish it. -/
def backfillNetwork (w : World) (c : HistCache) (now : Int) : HistOutcome :=
  let run := fetchLoop w MAX_API_CALLS (some SNAPSHOTS_URL) none
  match run.result with
  | .error _ =>
    { result := none, cache := c
      pageFetches := run.pageFetches, snapFetches := run.snapFetches }
  | .ok pts =>
    let sortedData := pts.insertionSort byTimeAsc
    { result := some sortedData
      cache := { snapshots := some sortedData, timestamp := some now }
      pageFetches := run.pageFetches, snapFetches := run.snapFetches }

/-- `fetchHistoricalData` (variant lines 104–201): serve a fresh cache entry
directly with no network activity, otherwise run the paginated backfill. -/
def fetchHistoricalData (w : World) (c : HistCache) (now : Int) : HistOutcome :=
  if cacheFresh c.snapshots c.timestamp now HIST_CACHE_DURATION then
    { result := c.snapshots, cache := c, pageFetches := 0, snapFetches := 0 }
  else backfillNetwork w c now

/-! ## The percentage display -/

/-- A JS number as far as the percentage computation observes it: a finite
value (with binary-double rounding abstracted as exact rational arithmetic),
a signed infinity, or NaN. -/
inductive JsNum where
  | num : ℚ → JsNum
  | posInf : JsNum
  | negInf : JsNum
  | nan : JsNum
deriving DecidableEq

/-- IEEE-754 division as JS performs it; in particular `x / 0` is NaN for
`x = 0` and a signed infinity otherwise — never an exception.  Denominator
zeroes coming from this code are positive zero. -/
def jsDiv : JsNum → JsNum → JsNum
  | .nan, _ => .nan
  | _, .nan => .nan
  | .posInf, .posInf => .nan
  | .posInf, .negInf => .nan
  | .negInf, .posInf => .nan
  | .negInf, .negInf => .nan
  | .posInf, .num b => if b < 0 then .negInf else .posInf
  | .negInf, .num b => if b < 0 then .posInf else .negInf
  | .num _, .posInf => .num 0
  | .num _, .negInf => .num 0
  | .num a, .num b =>
    if b = 0 then (if a = 0 then .nan else if a < 0 then .negInf else .posInf)
    else .num (a / b)

/-- IEEE-754 multiplication as JS performs it. -/
def jsMul : JsNum → JsNum → JsNum
  | .nan, _ => .nan
  | _, .nan => .nan
  | .posInf, .posInf => .posInf
  | .negInf, .negInf => .posInf
  | .posInf, .negInf => .negInf
  | .negInf, .posInf => .negInf
  | .posInf, .num b => if b = 0 then .nan else if b < 0 then .negInf else .posInf
  | .num b, .posInf => if b = 0 then .nan else if b < 0 then .negInf else .posInf
  | .negInf, .num b => if b = 0 then .nan else if b < 0 then .posInf else .negInf
  | .num b, .negInf => if b = 0 then .nan else if b < 0 then .posInf else .negInf
  | .num a, .num b => .num (a * b)

/-- Left-pad a digit string with zeroes to the requested width. -/
def padZeros (width : Nat) (s : String) : String :=
  if s.length < width then ⟨List.replicate (width - s.length) '0'⟩ ++ s else s

/-- `Number.prototype.toFixed(digits)`.  It throws a RangeError — the `none`
branch — only when `digits` lies outside the representable range, so the
constant `2` used by the table can never fail.  `NaN` and the infinities
render as their names; finite values round to `digits` decimals, half away
from zero. -/
def jsToFixed (digits : Nat) (x : JsNum) : Option String :=
  if 100 < digits then none
  else some <|
    match x with
    | .nan => "NaN"
    | .posInf => "Infinity"
    | .negInf => "-Infinity"
    | .num q =>
      let p : ℚ := (10 : ℚ) ^ digits
      let scaled : Int := if q < 0 then -⌊(-q) * p + 1 / 2⌋ else ⌊q * p + 1 / 2⌋
      let base : Int := (10 : Int) ^ digits
      if digits = 0 then toString (scaled / base)
      else
        toString (scaled / base) ++ "." ++
          padZeros digits (toString ((scaled % base).natAbs))

/-- The `% of Total` table cell (App.tsx lines 208–210; variant lines
384–386): `((count / totalNodes) * 100).toFixed(2)` followed by `%`. -/
def percentCell (count totalNodes : Nat) : Option String :=
  (jsToFixed 2 (jsMul (jsDiv (.num (count : ℚ)) (.num (totalNodes : ℚ)))
      (.num 100))).map (fun s => s ++ "%")

/-! ## Aggregator counting lemmas -/

lemma sum_bumpCount (counts : List (String × Nat)) (v : String) :
    ((bumpCount counts v).map Prod.snd).sum = (counts.map Prod.snd).sum + 1 := by
  induction counts with
  | nil => simp [bumpCount]
  | cons p rest ih =>
    obtain ⟨k, c⟩ := p
    by_cases h : k = v <;> simp [bumpCount, h, ih] <;> omega

lemma processNode_foldl (ns : List NodeRecord) :
    ∀ acc : AggregateResult,
      (((ns.foldl processNode acc).versionCounts.map Prod.snd).sum =
        (acc.versionCounts.map Prod.snd).sum + ns.length)
      ∧ (ns.foldl processNode acc).knotsCount + (ns.foldl processNode acc).otherCount =
          acc.knotsCount + acc.otherCount + ns.length := by
  induction ns with
  | nil => simp
  | cons n rest ih =>
    intro acc
    have h := ih (processNode acc n)
    simp only [List.foldl_cons, List.length_cons]
    refine ⟨h.1.trans ?_, h.2.trans ?_⟩
    · simp [processNode, sum_bumpCount]; omega
    · by_cases hk : jsIncludes n.version "Knots" <;> simp [processNode, hk] <;> omega

lemma foldl_count_if (p : NodeRecord → Bool) :
    ∀ (ns : List NodeRecord) (k : Nat),
      ns.foldl (fun kc node => if p node then kc + 1 else kc) k = k + ns.countP p := by
  intro ns
  induction ns with
  | nil => simp
  | cons n rest ih =>
    intro k
    by_cases hn : p n <;> simp [List.countP_cons, hn, ih] <;> omega

lemma processNode_foldl_knots :
    ∀ (ns : List NodeRecord) (acc : AggregateResult),
      (ns.foldl processNode acc).knotsCount =
        acc.knotsCount + ns.countP (fun n => jsIncludes n.version "Knots") := by
  intro ns
  induction ns with
  | nil => simp
  | cons n rest ih =>
    intro acc
    by_cases hn : jsIncludes n.version "Knots" <;>
      simp [List.countP_cons, processNode, hn, ih] <;> omega

/-- C1: for every snapshot handed to `processNodeData`, the version counts
sum to the number of node records in the snapshot's `nodes` mapping, and the
Knots count plus the non-Knots count also equals that record count — every
node record is tallied exactly once. -/
theorem processNodeData_counts (data : ApiResponse) :
    (((processNodeData data).versionCounts.map Prod.snd).sum = data.nodes.length)
    ∧ (processNodeData data).knotsCount + (processNodeData data).otherCount =
        data.nodes.length := by
  have h := processNode_foldl (data.nodes.map Prod.snd) ⟨[], 0, 0⟩
  simpa [processNodeData] using h

/-- C10: on any snapshot, the Knots-counting loop inside the historical
backfill computes the same marker count as the aggregator `processNodeData`:
the two independent loops implement one function. -/
theorem historicalKnots_matches_processNodeData (data : ApiResponse) :
    historicalKnotsCount data.nodes = (processNodeData data).knotsCount := by
  simp [historicalKnotsCount, processNodeData, foldl_count_if, processNode_foldl_knots]

/-! ## Table lemmas: stability, sortedness, truncation -/

lemma filter_orderedInsert (c : Nat) (x : String × Nat) (l : List (String × Nat)) :
    (l.orderedInsert byCountDesc x).filter (fun e => decide (e.2 = c)) =
      if x.2 = c then x :: l.filter (fun e => decide (e.2 = c))
      else l.filter (fun e => decide (e.2 = c)) := by
  induction l with
  | nil => by_cases hx : x.2 = c <;> simp [hx]
  | cons y ys ih =>
    by_cases hr : byCountDesc x y
    · rw [List.orderedInsert, if_pos hr]
      by_cases hx : x.2 = c <;> simp [List.filter_cons, hx]
    · rw [List.orderedInsert, if_neg hr]
      have hlt : x.2 < y.2 := lt_of_not_le hr
      by_cases hx : x.2 = c
      · have hy : ¬y.2 = c := by omega
        simp [List.filter_cons, hx, hy, ih]
      · by_cases hy : y.2 = c <;> simp [List.filter_cons, hx, hy, ih]

lemma filter_insertionSort (c : Nat) (l : List (String × Nat)) :
    (l.insertionSort byCountDesc).filter (fun e => decide (e.2 = c)) =
      l.filter (fun e => decide (e.2 = c)) := by
  induction l with
  | nil => rfl
  | cons x xs ih =>
    rw [List.insertionSort, filter_orderedInsert, ih]
    by_cases hx : x.2 = c <;> simp [List.filter_cons, hx]

/-- C6: for any version-count mapping the table derived by `sortedVersions`
has `min (number of versions) 21` rows — 21 exactly when there are 30
versions — its counts are sorted descending, and the sort is stable: for
every count value, the entries holding it stay in encounter order. -/
theorem sortedVersions_table (counts : List (String × Nat)) :
    ((sortedVersions counts).length = min counts.length 21)
    ∧ (counts.length = 30 → (sortedVersions counts).length = 21)
    ∧ ((sortedVersions counts).map Prod.snd).Sorted (· ≥ ·)
    ∧ ∀ c : Nat,
        (counts.insertionSort byCountDesc).filter (fun e => decide (e.2 = c)) =
          counts.filter (fun e => decide (e.2 = c)) := by
  have hlen : (sortedVersions counts).length = min counts.length 21 := by
    simp [sortedVersions, Nat.min_comm]
  refine ⟨hlen, ?_, ?_, fun c => filter_insertionSort c counts⟩
  · intro h30; rw [hlen, h30]; rfl
  · have hs : (counts.insertionSort byCountDesc).Sorted byCountDesc :=
      List.sorted_insertionSort byCountDesc counts
    have hst : ((counts.insertionSort byCountDesc).take 21).Sorted byCountDesc :=
      hs.sublist (List.take_sublist _ _)
    simp only [sortedVersions, List.map_map]
    exact List.pairwise_map.2 (hst.imp (fun h => h))

/-- C6 witness input: thirty versions with pairwise-distinct counts. -/
def exCounts : List (String × Nat) := (List.range 30).map (fun i => ("v", i))

theorem sortedVersions_table_witness :
    (sortedVersions exCounts).length = 21 :=
  (sortedVersions_table exCounts).2.1 (by simp [exCounts])

/-! ## Display-name normalization lemmas -/

lemma replaceFirstAux_of_isPrefixOf (pat repl s : List Char)
    (h : charsPrefix pat s = true) :
    replaceFirstAux pat repl s = repl ++ s.drop pat.length := by
  cases s <;> simp [replaceFirstAux, h]

lemma charsPrefix_false_of_notContains (pat s : List Char)
    (h : containsSub pat s = false) : charsPrefix pat s = false := by
  cases s with
  | nil => simpa [containsSub] using h
  | cons c cs =>
    simp only [containsSub, Bool.or_eq_false_iff] at h
    exact h.1

lemma replaceFirstAux_of_notContains (pat repl : List Char) :
    ∀ s : List Char, containsSub pat s = false → replaceFirstAux pat repl s = s := by
  intro s
  induction s with
  | nil =>
    intro h
    simp only [containsSub] at h
    simp [replaceFirstAux, h]
  | cons c cs ih =>
    intro h
    simp only [containsSub, Bool.or_eq_false_iff] at h
    simp [replaceFirstAux, h.1, ih h.2]

/-- C5 counterexample: the normalization is not prefix-stripping plus a
trailing slash.  On the claim's own second example the code keeps the
leading slash, mapping `/Knots:20.1/` to `/Knots:20.1` and not to
`Knots:20.1`; and on `a/Satoshi:b` the code removes a `/Satoshi:`
occurrence that is not a prefix, where prefix-only stripping would leave
the string unchanged. -/
theorem displayName_counterexample :
    (displayName "/Knots:20.1/" = "/Knots:20.1"
      ∧ displayName "/Knots:20.1/" ≠ "Knots:20.1")
    ∧ (displayName "a/Satoshi:b" = "ab"
      ∧ displayNameSpec "a/Satoshi:b" = "a/Satoshi:b") := by decide

/-- C5 (amended): the normalization removes the first occurrence of the
literal substring `/Satoshi:` wherever it appears, then a single trailing
slash; so `/Satoshi:24.0.1/` maps to `24.0.1` while `/Knots:20.1/` maps to
`/Knots:20.1` (its leading slash is kept), and on every version string in
which `/Satoshi:` occurs only as a leading prefix, or not at all, the code
agrees with the spec's prefix-stripping description. -/
theorem displayName_amended :
    (displayName "/Satoshi:24.0.1/" = "24.0.1"
      ∧ displayName "/Knots:20.1/" = "/Knots:20.1")
    ∧ ∀ version : String,
        (charsPrefix "/Satoshi:".toList version.toList = true
          ∨ jsIncludes version "/Satoshi:" = false) →
        displayName version = displayNameSpec version := by
  refine ⟨by decide, ?_⟩
  intro v h
  rcases h with h | h
  · simp only [displayName, displayNameSpec,
      replaceFirstAux_of_isPrefixOf _ _ _ h, if_pos h, List.nil_append]
  · have hc : containsSub "/Satoshi:".toList v.toList = false := h
    simp only [displayName, displayNameSpec,
      replaceFirstAux_of_notContains _ _ _ hc,
      charsPrefix_false_of_notContains _ _ hc, Bool.false_eq_true, if_false]

theorem displayName_amended_witness :
    displayName "/Satoshi:27.0/" = displayNameSpec "/Satoshi:27.0/" :=
  displayName_amended.2 "/Satoshi:27.0/" (Or.inl (by decide))

/-! ## Cache policy, cache hits, and error aborts -/

/-- C7: a cache entry stored at time `T` with TTL `D` is read as fresh at
`T + D - 1` and stale at `T + D`; in general the freshness test holds
exactly when `now - storedAt < TTL`, at the historical series' TTL of 24
hours and the latest-snapshot TTL of 21 minutes (both in milliseconds). -/
theorem cacheFresh_boundary :
    (∀ (d : List HistPoint) (T D : Int),
        cacheFresh (some d) (some T) (T + D - 1) D = true
      ∧ cacheFresh (some d) (some T) (T + D) D = false)
    ∧ (∀ (d : List HistPoint) (T now : Int),
        cacheFresh (some d) (some T) now HIST_CACHE_DURATION = true
          ↔ now - T < HIST_CACHE_DURATION)
    ∧ (∀ (d : ApiResponse) (T now : Int),
        cacheFresh (some d) (some T) now NODE_CACHE_DURATION = true
          ↔ now - T < NODE_CACHE_DURATION)
    ∧ HIST_CACHE_DURATION = 24 * 60 * 60 * 1000
    ∧ NODE_CACHE_DURATION = 21 * 60 * 1000 := by
  refine ⟨fun d T D => ⟨?_, ?_⟩, fun d T now => ?_, fun d T now => ?_, rfl, rfl⟩ <;>
    simp [cacheFresh] <;> omega

theorem cacheFresh_boundary_witness :
    cacheFresh (some ([] : List HistPoint)) (some (0 : Int))
        (0 + HIST_CACHE_DURATION - 1) HIST_CACHE_DURATION = true
    ∧ cacheFresh (some ([] : List HistPoint)) (some (0 : Int))
        (0 + HIST_CACHE_DURATION) HIST_CACHE_DURATION = false :=
  cacheFresh_boundary.1 [] 0 HIST_CACHE_DURATION

/-- C8: re-invoking the backfill while the cached series is younger than 24
hours returns exactly the previously stored sequence, leaves the cache
untouched, and performs zero network requests of either kind. -/
theorem fetchHistoricalData_cache_hit (w : World) (d : List HistPoint)
    (ts now : Int) (h : now - ts < HIST_CACHE_DURATION) :
    fetchHistoricalData w ⟨some d, some ts⟩ now =
      ⟨some d, ⟨some d, some ts⟩, 0, 0⟩ := by
  simp [fetchHistoricalData, cacheFresh, h]

theorem fetchHistoricalData_cache_hit_witness :
    fetchHistoricalData ⟨fun _ => none, fun _ => none⟩ ⟨some [], some 0⟩ 0 =
      ⟨some [], ⟨some [], some 0⟩, 0, 0⟩ :=
  fetchHistoricalData_cache_hit ⟨fun _ => none, fun _ => none⟩ [] 0 0 (by decide)

/-- C4: if any fetch of the backfill loop fails, the whole run aborts: the
points accumulated before the failure are neither published as output nor
written to the cache — the historical cache keys are exactly as before. -/
theorem backfill_error_aborts (w : World) (c : HistCache) (now : Int)
    (hmiss : cacheFresh c.snapshots c.timestamp now HIST_CACHE_DURATION = false)
    (herr : (fetchLoop w MAX_API_CALLS (some SNAPSHOTS_URL) none).result = .error ()) :
    (fetchHistoricalData w c now).result = none
    ∧ (fetchHistoricalData w c now).cache = c := by
  simp [fetchHistoricalData, hmiss, backfillNetwork, herr]

theorem backfill_error_aborts_witness :
    (fetchHistoricalData ⟨fun _ => none, fun _ => none⟩ ⟨none, none⟩ 0).result = none
    ∧ (fetchHistoricalData ⟨fun _ => none, fun _ => none⟩ ⟨none, none⟩ 0).cache =
        ⟨none, none⟩ :=
  backfill_error_aborts ⟨fun _ => none, fun _ => none⟩ ⟨none, none⟩ 0 rfl rfl

/-! ## The percentage cell at zero total -/

/-- C9: the percentage cell cannot crash when `total_nodes` is zero: JS
division by zero yields NaN (for a zero count) or Infinity (for a positive
count) rather than throwing, and `toFixed(2)` renders those as the defined
strings `NaN` and `Infinity`; for every count the cell is some defined
displayable value. -/
theorem percentCell_total_zero (count : Nat) :
    percentCell count 0 = some (if count = 0 then "NaN%" else "Infinity%") := by
  by_cases h : count = 0
  · subst h
    simp [percentCell, jsDiv, jsMul, jsToFixed]
  · have h1 : ((count : ℚ)) ≠ 0 := Nat.cast_ne_zero.mpr h
    have h2 : ¬((count : ℚ) < 0) := not_lt.mpr (Nat.cast_nonneg count)
    have h3 : ¬((100 : ℚ) < 0) := by norm_num
    have h4 : ((100 : ℚ)) ≠ 0 := by norm_num
    simp [percentCell, jsDiv, jsMul, jsToFixed, h, h1, h2, h3, h4]

/-! ## Page-cap lemmas -/

lemma processKept_ok (w : World) (hs : ∀ u, (w.snapshots u).isSome) :
    ∀ l : List Summary, ∃ pts, (processKept w l).1 = .ok pts := by
  intro l
  induction l with
  | nil => exact ⟨[], rfl⟩
  | cons s rest ih =>
    obtain ⟨resp, hresp⟩ := Option.isSome_iff_exists.mp (hs s.url)
    obtain ⟨pts, hpts⟩ := ih
    refine ⟨⟨s.timestamp, historicalKnotsCount resp.nodes⟩ :: pts, ?_⟩
    simp [processKept, hresp, hpts, Except.map]

lemma fetchLoop_pageFetches_le (w : World) :
    ∀ (fuel : Nat) (url : Option String) (last : Option Nat),
      (fetchLoop w fuel url last).pageFetches ≤ fuel := by
  intro fuel
  induction fuel with
  | zero => intro url last; simp [fetchLoop]
  | succ n ih =>
    intro url last
    cases url with
    | none => simp [fetchLoop]
    | some u =>
      simp only [fetchLoop]
      split
      · exact Nat.succ_le_succ (Nat.zero_le n)
      · split
        · exact Nat.succ_le_succ (Nat.zero_le n)
        · exact Nat.succ_le_succ (ih _ _)

lemma fetchLoop_full (w : World)
    (hp : ∀ u, ∃ p, w.pages u = some p ∧ p.next ≠ none)
    (hs : ∀ u, (w.snapshots u).isSome) :
    ∀ (fuel : Nat) (url : String) (last : Option Nat),
      (fetchLoop w fuel (some url) last).pageFetches = fuel := by
  intro fuel
  induction fuel with
  | zero => intro url last; rfl
  | succ n ih =>
    intro url last
    obtain ⟨page, hpu, hnext⟩ := hp url
    obtain ⟨nu, hnu⟩ := Option.ne_none_iff_exists'.mp hnext
    obtain ⟨pts, hpts⟩ := processKept_ok w hs (filterSummaries last page.results).1
    simp only [fetchLoop, hpu, hpts]
    rw [hnu, ih nu _]

lemma backfillNetwork_pageFetches (w : World) (c : HistCache) (now : Int) :
    (backfillNetwork w c now).pageFetches =
      (fetchLoop w MAX_API_CALLS (some SNAPSHOTS_URL) none).pageFetches := by
  simp only [backfillNetwork]
  split <;> rfl

/-- C3: the backfill performs at most 12 listing-page fetches in every run;
and when every listing URL serves a page with a non-null `next` (and
snapshot fetches succeed, so no thrown error cuts the run short), a
cache-missing run performs exactly 12 listing-page fetches. -/
theorem backfill_page_cap :
    (∀ (w : World) (c : HistCache) (now : Int),
        cacheFresh c.snapshots c.timestamp now HIST_CACHE_DURATION = false →
        (∀ u, ∃ p, w.pages u = some p ∧ p.next ≠ none) →
        (∀ u, (w.snapshots u).isSome) →
        (fetchHistoricalData w c now).pageFetches = 12)
    ∧ ∀ (w : World) (c : HistCache) (now : Int),
        (fetchHistoricalData w c now).pageFetches ≤ 12 := by
  constructor
  · intro w c now hmiss hp hs
    have h12 := fetchLoop_full w hp hs MAX_API_CALLS SNAPSHOTS_URL none
    simp only [MAX_API_CALLS] at h12
    simp [fetchHistoricalData, hmiss, backfillNetwork_pageFetches, h12, MAX_API_CALLS]
  · intro w c now
    by_cases hf : cacheFresh c.snapshots c.timestamp now HIST_CACHE_DURATION
    · simp [fetchHistoricalData, hf]
    · have hle := fetchLoop_pageFetches_le w MAX_API_CALLS (some SNAPSHOTS_URL) none
      simpa [fetchHistoricalData, hf, backfillNetwork_pageFetches] using hle

/-- C3 witness world: every URL serves an empty listing page linking
onward, so `next` is never null. -/
def wEndless : World :=
  { pages := fun _ => some ⟨some SNAPSHOTS_URL, []⟩
    snapshots := fun _ => some ⟨0, 0, 0, []⟩ }

theorem backfill_page_cap_witness :
    (fetchHistoricalData wEndless ⟨none, none⟩ 0).pageFetches = 12 :=
  backfill_page_cap.1 wEndless ⟨none, none⟩ 0 rfl
    (fun _ => ⟨⟨some SNAPSHOTS_URL, []⟩, rfl, by simp⟩)
    (fun _ => rfl)

/-! ## Week-spacing lemmas -/

lemma one_week_seconds : ONE_WEEK_MS / 1000 = 604800 := by decide

lemma filterSummaries_append (l₁ : List Summary) :
    ∀ (last : Option Nat) (l₂ : List Summary),
      filterSummaries last (l₁ ++ l₂) =
        ((filterSummaries last l₁).1 ++
            (filterSummaries (filterSummaries last l₁).2 l₂).1,
          (filterSummaries (filterSummaries last l₁).2 l₂).2) := by
  induction l₁ with
  | nil => intro last l₂; simp [filterSummaries]
  | cons s rest ih =>
    intro last l₂
    simp only [List.cons_append, filterSummaries, ih]
    cases (keepSnapshot last s.timestamp).1 <;> simp [ih]

lemma processKept_timestamps (w : World) :
    ∀ (l : List Summary) (pts : List HistPoint),
      (processKept w l).1 = .ok pts →
      pts.map HistPoint.timestamp = l.map Summary.timestamp := by
  intro l
  induction l with
  | nil =>
    intro pts h
    simp only [processKept] at h
    cases h
    rfl
  | cons s rest ih =>
    intro pts h
    cases hresp : w.snapshots s.url with
    | none => rw [processKept, hresp] at h; cases h
    | some resp =>
      simp only [processKept, hresp] at h
      cases hr : (processKept w rest).1 with
      | error e => rw [hr] at h; simp [Except.map] at h
      | ok pts0 =>
        rw [hr] at h
        simp only [Except.map, Except.ok.injEq] at h
        subst h
        simp [ih pts0 hr]

lemma fetchLoop_points (w : World) :
    ∀ (fuel : Nat) (url : Option String) (last : Option Nat)
      (pts : List HistPoint),
      (fetchLoop w fuel url last).result = .ok pts →
      pts.map HistPoint.timestamp =
        ((filterSummaries last (visitedResults w fuel url)).1).map
          Summary.timestamp := by
  intro fuel
  induction fuel with
  | zero =>
    intro url last pts h
    simp only [fetchLoop] at h
    cases h
    simp [visitedResults, filterSummaries]
  | succ n ih =>
    intro url last pts h
    cases url with
    | none =>
      simp only [fetchLoop] at h
      cases h
      simp [visitedResults, filterSummaries]
    | some u =>
      cases hp : w.pages u with
      | none => simp only [fetchLoop, hp] at h; cases h
      | some page =>
        simp only [fetchLoop, hp] at h
        cases hk : (processKept w (filterSummaries last page.results).1).1 with
        | error e => rw [hk] at h; cases h
        | ok pts1 =>
          rw [hk] at h
          simp only at h
          cases hr : (fetchLoop w n page.next
              (filterSummaries last page.results).2).result with
          | error e => rw [hr] at h; cases h
          | ok pts2 =>
            rw [hr] at h
            simp only [Except.map, Except.ok.injEq] at h
            subst h
            have ht1 := processKept_timestamps w _ pts1 hk
            have ht2 := ih page.next (filterSummaries last page.results).2 pts2 hr
            simp [visitedResults, hp, filterSummaries_append, ht1, ht2]

lemma filterSummaries_spaced :
    ∀ (l : List Summary) (last : Option Nat),
      ((l.map Summary.timestamp).Pairwise (fun a b => b < a)) →
      (∀ v, last = some v → ∀ s ∈ l, s.timestamp < v) →
      (((filterSummaries last l).1.map Summary.timestamp).Chain'
          (fun a b => b + 604800 ≤ a))
      ∧ (∀ v, last = some v → v ≠ 0 →
          ∀ t ∈ ((filterSummaries last l).1.map Summary.timestamp).head?,
            t + 604800 ≤ v) := by
  intro l
  induction l with
  | nil => intro last _ _; simp [filterSummaries]
  | cons s rest ih =>
    intro last hsort hst
    rw [List.map_cons, List.pairwise_cons] at hsort
    have hlt : ∀ x ∈ rest, x.timestamp < s.timestamp := fun x hx =>
      hsort.1 x.timestamp (List.mem_map_of_mem Summary.timestamp hx)
    -- the shared "kept `s`, recurse with state `some s.timestamp`" argument
    have hkeepCase :
        (((s :: (filterSummaries (some s.timestamp) rest).1).map
            Summary.timestamp).Chain' (fun a b => b + 604800 ≤ a)) := by
      have hrec := ih (some s.timestamp) hsort.2
        (fun v hv x hx => by cases hv; exact hlt x hx)
      rw [List.map_cons, List.chain'_cons']
      refine ⟨?_, hrec.1⟩
      intro y hy
      by_cases hs0 : s.timestamp = 0
      · cases rest with
        | nil => simp [filterSummaries] at hy
        | cons r rs =>
          exact absurd (hlt r (List.mem_cons_self r rs)) (by omega)
      · exact hrec.2 s.timestamp rfl hs0 y hy
    cases last with
    | none =>
      constructor
      · simpa [filterSummaries, keepSnapshot] using hkeepCase
      · intro v hv; cases hv
    | some v =>
      have hsv : s.timestamp < v := hst v rfl s (List.mem_cons_self s rest)
      have hv0 : ¬v = 0 := by omega
      by_cases hkeep : ONE_WEEK_MS / 1000 ≤
          max s.timestamp v - min s.timestamp v
      · constructor
        · simpa [filterSummaries, keepSnapshot, hv0, hkeep] using hkeepCase
        · intro v' hv' hne y hy
          cases hv'
          simp [filterSummaries, keepSnapshot, hv0, hkeep] at hy
          rw [one_week_seconds] at hkeep
          subst hy
          omega
      · have hrec := ih (some v) hsort.2
          (fun v' hv' x hx => by cases hv'; exact lt_trans (hlt x hx) hsv)
        constructor
        · simpa [filterSummaries, keepSnapshot, hv0, hkeep] using hrec.1
        · intro v' hv' hne y hy
          cases hv'
          simp only [filterSummaries, keepSnapshot, if_neg hv0,
            if_neg hkeep] at hy
          exact hrec.2 v rfl hne y hy

lemma orderedInsert_eq_append (p : HistPoint) :
    ∀ L : List HistPoint, (∀ x ∈ L, ¬byTimeAsc p x) →
      L.orderedInsert byTimeAsc p = L ++ [p] := by
  intro L
  induction L with
  | nil => intro _; rfl
  | cons y ys ih =>
    intro h
    rw [List.orderedInsert, if_neg (h y (List.mem_cons_self y ys)),
      ih (fun x hx => h x (List.mem_cons_of_mem y hx))]
    rfl

lemma insertionSort_of_strictDesc :
    ∀ pts : List HistPoint,
      ((pts.map HistPoint.timestamp).Pairwise (fun a b => b < a)) →
      pts.insertionSort byTimeAsc = pts.reverse := by
  intro pts
  induction pts with
  | nil => intro _; rfl
  | cons p rest ih =>
    intro h
    rw [List.map_cons, List.pairwise_cons] at h
    have h1 : ∀ x ∈ rest, x.timestamp < p.timestamp := fun x hx =>
      h.1 x.timestamp (List.mem_map_of_mem HistPoint.timestamp hx)
    rw [List.insertionSort, ih h.2, orderedInsert_eq_append, List.reverse_cons]
    intro x hx
    have hm : x ∈ rest := List.mem_reverse.mp hx
    have := h1 x hm
    simp only [byTimeAsc]
    omega

/-- C2: over listing pages whose summaries, in reading order, are strictly
ordered newest first, a backfill run that completes (cache-missing, output
published) yields points ascending by timestamp with every two consecutive
points at least one week (604800 seconds) apart. -/
theorem backfill_spacing (w : World) (c : HistCache) (now : Int)
    (pts : List HistPoint)
    (hmiss : cacheFresh c.snapshots c.timestamp now HIST_CACHE_DURATION = false)
    (hout : (fetchHistoricalData w c now).result = some pts)
    (hdesc : ((visitedResults w MAX_API_CALLS (some SNAPSHOTS_URL)).map
        Summary.timestamp).Pairwise (fun a b => b < a)) :
    ((pts.map HistPoint.timestamp).Chain' (fun a b => a + 604800 ≤ b))
    ∧ (pts.map HistPoint.timestamp).Sorted (· ≤ ·) := by
  rw [fetchHistoricalData, if_neg (by simp [hmiss])] at hout
  cases hr : (fetchLoop w MAX_API_CALLS (some SNAPSHOTS_URL) none).result with
  | error e =>
    rw [backfillNetwork] at hout
    rw [hr] at hout
    cases hout
  | ok pts0 =>
    rw [backfillNetwork] at hout
    rw [hr] at hout
    simp only [Option.some.injEq] at hout
    have hts := fetchLoop_points w MAX_API_CALLS (some SNAPSHOTS_URL) none pts0 hr
    have hspaced := (filterSummaries_spaced
      (visitedResults w MAX_API_CALLS (some SNAPSHOTS_URL)) none hdesc
      (fun v hv => by cases hv)).1
    rw [← hts] at hspaced
    haveI : IsTrans Nat (fun a b : Nat => b + 604800 ≤ a) :=
      ⟨fun a b c h1 h2 => by omega⟩
    have hpair : (pts0.map HistPoint.timestamp).Pairwise
        (fun a b => b + 604800 ≤ a) := List.chain'_iff_pairwise.mp hspaced
    have hdesc0 : (pts0.map HistPoint.timestamp).Pairwise (fun a b => b < a) :=
      hpair.imp (fun h => by omega)
    have hsorted : pts = pts0.reverse := by
      rw [← hout, insertionSort_of_strictDesc pts0 hdesc0]
    subst hsorted
    rw [List.map_reverse]
    constructor
    · exact List.chain'_reverse.mpr hspaced
    · haveI : IsTrans Nat (fun a b : Nat => a + 604800 ≤ b) :=
        ⟨fun a b c h1 h2 => by omega⟩
      have : ((pts0.map HistPoint.timestamp).reverse).Chain'
          (fun a b => a + 604800 ≤ b) := List.chain'_reverse.mpr hspaced
      exact (List.chain'_iff_pairwise.mp this).imp (fun h => by omega)

/-- C2 witness world: one listing page of ten summaries at one-day
intervals, newest first. -/
def w10 : World :=
  { pages := fun u =>
      if u = SNAPSHOTS_URL then
        some ⟨none, (List.range 10).map
          (fun i => { url := "u", timestamp := 10000000 - i * 86400,
                      total_nodes := 0, latest_height := 0 })⟩
      else none
    snapshots := fun _ => some ⟨0, 0, 0, []⟩ }

/-- The two points the witness run keeps, exactly one week apart: the
newest summary and the one seven days older. -/
def pts10 : List HistPoint := [⟨10000000 - 604800, 0⟩, ⟨10000000, 0⟩]

theorem backfill_spacing_witness :
    ((fetchHistoricalData w10 ⟨none, none⟩ 0).result = some pts10)
    ∧ (pts10.map HistPoint.timestamp).Chain' (fun a b => a + 604800 ≤ b) :=
  ⟨by decide,
    (backfill_spacing w10 ⟨none, none⟩ 0 pts10 rfl (by decide) (by decide)).1⟩

end KnotsGoUp
